import Mathlib

/-!
Verification of the OCR pipeline of `FOO_QtPy` (files
`src/utils/OCR_PDF_local_CLI.py` and `src/utils/OCR_grant.py`) against its
natural-language specification.  The Python code is shallowly embedded:
page text is `List Char`, confidences are `ℚ`, images are grids of `ℕ`
pixel values, and calls into external libraries (OpenCV numeric kernels,
pytesseract, easyocr, the PDF rasterizer) are parameters of the embedded
functions.  Everything the repository's own code decides — guard logic,
aggregation arithmetic, regex-based section detection, the per-page fold —
is translated definition by definition from the source.
-/

namespace FooQtPy

/-- Page text, the embedding of a Python `str`. -/
abbrev Text := List Char

/-- Conversion of a `String` literal to `Text`. -/
def strT (s : String) : Text := s.toList

/-- Python whitespace characters recognized by `str.strip` / regex `\s`
(ASCII subset, which is all the OCR pipeline feeds it). -/
def pyWs (c : Char) : Bool :=
  c = ' ' || c = '\t' || c = '\n' || c = '\r' || c = '\x0b' || c = '\x0c'

/-- Embedding of Python `str.strip()`: drop leading and trailing whitespace. -/
def pyStrip (s : Text) : Text :=
  ((s.dropWhile pyWs).reverse.dropWhile pyWs).reverse

/-- Embedding of Python `str.split('\n')`: split on every newline, keeping
empty pieces; the result is never the empty list. -/
def splitNl : Text → List Text
  | [] => [[]]
  | c :: cs =>
    match splitNl cs, decide (c = '\n') with
    | r, true => [] :: r
    | [], false => [[c]]
    | l :: ls, false => (c :: l) :: ls

/-- Lower-case an ASCII letter, the case folding done by the `(?i)` flag on
the section regexes (whose literals are ASCII). -/
def asciiLower (c : Char) : Char :=
  if 'A' ≤ c ∧ c ≤ 'Z' then Char.ofNat (c.toNat + 32) else c

/-- Regular expressions, enough for the patterns in
`GrantProposalOCR.SECTION_PATTERNS`: character predicates, sequencing,
alternation, Kleene star. -/
inductive Rx : Type
  | fail : Rx
  | eps : Rx
  | pred : (Char → Bool) → Rx
  | seq : Rx → Rx → Rx
  | alt : Rx → Rx → Rx
  | star : Rx → Rx

namespace Rx

/-- Does the regex accept the empty string? -/
def nullable : Rx → Bool
  | fail => false
  | eps => true
  | pred _ => false
  | seq a b => nullable a && nullable b
  | alt a b => nullable a || nullable b
  | star _ => true

/-- Brzozowski derivative with respect to one character. -/
def deriv : Rx → Char → Rx
  | fail, _ => fail
  | eps, _ => fail
  | pred p, c => if p c then eps else fail
  | seq a b, c =>
    if nullable a then alt (seq (deriv a c) b) (deriv b c)
    else seq (deriv a c) b
  | alt a b, c => alt (deriv a c) (deriv b c)
  | star a, c => seq (deriv a c) (star a)

/-- Embedding of Python `re.match`: does the regex match some prefix of the
string (matching is anchored at the start only)? -/
def matchPre : Rx → Text → Bool
  | r, [] => nullable r
  | r, c :: cs => nullable r || matchPre (deriv r c) cs

/-- Case-insensitive literal character (the literal is lower case). -/
def ciChar (c : Char) : Rx := pred (fun x => asciiLower x = c)

/-- Case-insensitive literal string, as in the `(?i)` patterns. -/
def lit (s : String) : Rx := s.toList.foldr (fun c r => seq (ciChar c) r) eps

/-- The regex piece `\s*`. -/
def wsStar : Rx := star (pred pyWs)

/-- The regex piece `X?` for a single character. -/
def optChar (c : Char) : Rx := alt (ciChar c) eps

end Rx

open Rx in
/-- Embedding of `GrantProposalOCR.SECTION_PATTERNS`, in dict insertion
order, each Python regex translated constructor by constructor:
`(?i)specific\s*aims?`, `(?i)significance`, `(?i)innovation`,
`(?i)approach`, `(?i)research\s*strategy`, `(?i)background`,
`(?i)preliminary\s*(data|studies|results)`, `(?i)methods`,
`(?i)(bibliography|references|literature\s*cited)`, `(?i)budget`,
`(?i)personnel`, `(?i)facilities`. -/
def SECTION_PATTERNS : List (String × Rx) :=
  [("specific_aims", seq (lit "specific") (seq wsStar (seq (lit "aim") (optChar 's')))),
   ("significance", lit "significance"),
   ("innovation", lit "innovation"),
   ("approach", lit "approach"),
   ("research_strategy", seq (lit "research") (seq wsStar (lit "strategy"))),
   ("background", lit "background"),
   ("preliminary_data",
     seq (lit "preliminary") (seq wsStar (alt (lit "data") (alt (lit "studies") (lit "results"))))),
   ("methods", lit "methods"),
   ("bibliography", alt (lit "bibliography") (alt (lit "references") (seq (lit "literature") (seq wsStar (lit "cited"))))),
   ("budget", lit "budget"),
   ("personnel", lit "personnel"),
   ("facilities", lit "facilities")]

/-- One entry of `GrantProposalOCR.detect_sections`'s result: the dict
`{'section': …, 'line': …, 'title': …}`. -/
structure Found where
  section_key : String
  line : ℕ
  title : Text
  deriving DecidableEq, Repr

/-- The matches `detect_sections` records for one line (inner `for` over
`SECTION_PATTERNS`): pattern must `re.match` the stripped line and the
stripped line must be shorter than 50 characters. -/
def lineMatches (i : ℕ) (line : Text) : List Found :=
  SECTION_PATTERNS.filterMap (fun kp =>
    if Rx.matchPre kp.2 (pyStrip line) && decide ((pyStrip line).length < 50)
    then some ⟨kp.1, i, pyStrip line⟩ else none)

/-- The outer `for i, line in enumerate(lines)` of `detect_sections`. -/
def detectFrom (i : ℕ) : List Text → List Found
  | [] => []
  | l :: ls => lineMatches i l ++ detectFrom (i + 1) ls

/-- Embedding of `GrantProposalOCR.detect_sections`: split the page text on
newlines and collect, line by line and pattern by pattern, every short line
matching a section pattern. -/
def detect_sections (t : Text) : List Found :=
  detectFrom 0 (splitNl t)

/-! ### The per-page fold of `GrantProposalOCR.process_grant_proposal` -/

/-- Embedding of Python `enumerate(xs, n)`. -/
def enumFrom (n : ℕ) : List α → List (ℕ × α)
  | [] => []
  | a :: as => (n, a) :: enumFrom (n + 1) as

/-- The `self.sections` dict: insertion-ordered association list from a
section key to the pages appended under it (`{'page': n, 'text': t}`). -/
abbrev Sections := List (String × List (ℕ × Text))

/-- Embedding of `if current_section not in self.sections: self.sections[current_section] = []`:
— a Python dict adds a fresh key at the end, existing keys are untouched. -/
def ensureKey (k : String) (S : Sections) : Sections :=
  if S.any (fun s => s.1 = k) then S else S ++ [(k, [])]

/-- Embedding of `self.sections[current_section].append(page)` — in-place append under
the (unique) entry with the given key. -/
def appendPage (k : String) (pg : ℕ × Text) : Sections → Sections
  | [] => []
  | (k', l) :: rest =>
    if k' = k then (k', l ++ [pg]) :: rest else (k', l) :: appendPage k pg rest

/-- The body of the page loop of `process_grant_proposal`: run
`detect_sections` on the page text, walk the found list updating
`current_section` and creating missing dict keys, then append the page
under the resulting current section. -/
def grantStep (st : String × Sections) (pg : ℕ × Text) : String × Sections :=
  let found := detect_sections pg.2
  let st1 := found.foldl (fun s f => (f.section_key, ensureKey f.section_key s.2)) st
  (st1.1, appendPage st1.1 pg st1.2)

/-- Embedding of `GrantProposalOCR.process_grant_proposal`, given the
per-page recognized texts (PDF rasterization and the OCR call itself are
the external collaborators producing them): `current_section = "preamble"`,
`self.sections["preamble"] = []`, then the page loop over
`enumerate(images, 1)`. -/
def process_grant_proposal (texts : List Text) : Sections :=
  ((enumFrom 1 texts).foldl grantStep ("preamble", [("preamble", [])])).2

/-- The trace of `current_section` at the end of each iteration of the page
loop — the section each page is appended under. -/
def sectionTrace : String × Sections → List (ℕ × Text) → List String
  | _, [] => []
  | st, pg :: pgs => ((grantStep st pg).1) :: sectionTrace (grantStep st pg) pgs

/-- The section assigned to each page by `process_grant_proposal`, page by
page in order. -/
def section_assignments (texts : List Text) : List String :=
  sectionTrace ("preamble", [("preamble", [])]) (enumFrom 1 texts)

/-! ### Confidence aggregation and the two OCR adapters
(`PDFOCRProcessor.ocr_with_tesseract` / `ocr_with_easyocr`) -/

/-- The confidence aggregation of `ocr_with_tesseract`:
`confidences = [float(conf) for conf in data['conf'] if float(conf) > 0]`
then `sum(confidences) / len(confidences) if confidences else 0`. -/
def tesseractAggregate (confs : List ℚ) : ℚ :=
  let confidences := confs.filter (fun c => 0 < c)
  if confidences.isEmpty then 0 else confidences.sum / confidences.length

/-- The confidence aggregation of `ocr_with_easyocr`:
`sum(confidences) / len(confidences) if confidences else 0` over the raw
probabilities of every detection, with no filtering and no rescaling. -/
def easyocrAggregate (probs : List ℚ) : ℚ :=
  if probs.isEmpty then 0 else probs.sum / probs.length

/-- Modelled from the spec: the ConfidenceAggregator policy as §4.3 states
it — the mean of the confidences of tokens with confidence > 0, and 0 for
an empty or all-zero token set.  Used to compare the two code paths
against the specified policy. -/
def specAggregate (confs : List ℚ) : ℚ :=
  let positive := confs.filter (fun c => 0 < c)
  if positive.isEmpty then 0 else positive.sum / positive.length

/-- A bounding box returned by `easyocr.Reader.readtext` (pixel corner
coordinates; opaque to the claims). -/
abbrev EasyBox := List (ℤ × ℤ)

/-- The page-level result dict built by `ocr_with_tesseract` /
`ocr_with_easyocr`: `{'text': …, 'confidence': …, 'details': …}`. -/
structure OcrOut (D : Type) where
  text : Text
  confidence : ℚ
  details : D
  deriving DecidableEq, Repr

/-- Python `sep.join(parts)`. -/
def joinSep (sep : Text) : List Text → Text
  | [] => []
  | [p] => p
  | p :: ps => p ++ sep ++ joinSep sep ps

/-- Embedding of `ocr_with_easyocr` from the `(bbox, text, prob)` triples
returned by `self.reader.readtext` (external): texts joined with a space,
confidence the plain average of the raw probabilities. -/
def ocr_with_easyocr (results : List (EasyBox × Text × ℚ)) :
    OcrOut (List (EasyBox × Text × ℚ)) :=
  let text_parts := results.map (fun r => r.2.1)
  let confidences := results.map (fun r => r.2.2)
  { text := joinSep (strT " ") text_parts
    confidence := easyocrAggregate confidences
    details := results }

/-- Embedding of `ocr_with_tesseract` from the outputs of the two external
pytesseract calls (`image_to_string` text and the `image_to_data` dict,
of which only the `conf` column enters the result's confidence). -/
def ocr_with_tesseract (text : Text) (dataConf : List ℚ) (D : Type) (data : D) :
    OcrOut D :=
  { text := text, confidence := tesseractAggregate dataConf, details := data }

/-! ### The per-page loop of `PDFOCRProcessor.process_pdf` -/

/-- One page's entry in `self.extracted_text`: a successful OCR stores the
result dict (with `details`, no `error` key); a caught exception stores
`{'text': '', 'confidence': 0, 'error': str(e)}`. -/
structure PageRec (D : Type) where
  text : Text
  confidence : ℚ
  details : Option D
  error : Option Text
  deriving DecidableEq, Repr

/-- The body of `try/except` around the per-page OCR call. -/
def pageRecOf : Except Text (OcrOut D) → PageRec D
  | .ok r => ⟨r.text, r.confidence, some r.details, none⟩
  | .error e => ⟨[], 0, none, some e⟩

/-- The engine dispatch inside `process_pdf`'s `try` block together with
the availability checks at the top of `ocr_with_tesseract` /
`ocr_with_easyocr`: a missing library raises `ImportError`, an unknown
engine name raises `ValueError`, and the actual backend invocation
(external) may itself raise. -/
def engineDispatch (engine : String) (tessAvail easyAvail : Bool)
    (runTess runEasy : α → Except Text (OcrOut D)) (img : α) :
    Except Text (OcrOut D) :=
  if engine = "tesseract" then
    if tessAvail then runTess img
    else .error (strT "pytesseract not installed. Install with: pip install pytesseract")
  else if engine = "easyocr" then
    if easyAvail then runEasy img
    else .error (strT "easyocr not installed. Install with: pip install easyocr")
  else .error (strT "Unknown OCR engine: " ++ strT engine)

/-- Embedding of the page loop of `PDFOCRProcessor.process_pdf`: the images
`[(1, img1), …, (n, imgn)]` come from the external extractors; each page's
OCR attempt is caught page-locally and recorded under its page number in
`self.extracted_text` (modelled as the insertion-ordered association list
the loop builds). -/
def process_pdf (ocr : ℕ → α → Except Text (OcrOut D)) (imgs : List α) :
    List (ℕ × PageRec D) :=
  (enumFrom 1 imgs).foldl (fun acc p => acc ++ [(p.1, pageRecOf (ocr p.1 p.2))]) []

/-! ### `GrantProposalOCR.extract_page_structure` -/

/-- Python `int()` applied to a float/number: truncation toward zero. -/
def pyInt (q : ℚ) : ℤ := if 0 ≤ q then ⌊q⌋ else -⌊-q⌋

/-- One column-aligned row of the `image_to_data` dict (text, left, top,
width, height, conf), zipped. -/
structure RawTok where
  text : Text
  left : ℤ
  top : ℤ
  width : ℤ
  height : ℤ
  conf : ℚ
  deriving DecidableEq, Repr

/-- One entry of the `structured_text` list built by
`extract_page_structure` (with the stripped text and the raw conf). -/
structure StructTok where
  text : Text
  left : ℤ
  top : ℤ
  width : ℤ
  height : ℤ
  conf : ℚ
  deriving DecidableEq, Repr

/-- Embedding of the token loop of `GrantProposalOCR.extract_page_structure`
over the external `image_to_data` output: keep a token when
`int(data['conf'][i]) > 30` and its stripped text is nonempty. -/
def extract_page_structure (data : List RawTok) : List StructTok :=
  data.foldr (fun t acc =>
    if 30 < pyInt t.conf then
      if (pyStrip t.text).isEmpty then acc
      else ⟨pyStrip t.text, t.left, t.top, t.width, t.height, t.conf⟩ :: acc
    else acc) []

/-! ### Image preprocessing
(`PDFOCRProcessor.preprocess_image` and
`GrantProposalOCR.preprocess_grant_image`) -/

/-- A single-channel image: a grid of pixel values (row-major). -/
abbrev Img := List (List ℕ)

/-- Embedding of `np.column_stack(np.where(img > 0))`: row-major coordinates of the
pixels with value above 0. -/
def fgCoordsPos (img : Img) : List (ℕ × ℕ) :=
  ((enumFrom 0 img).map (fun r =>
    (enumFrom 0 r.2).filterMap (fun c =>
      if 0 < c.2 then some (r.1, c.1) else none))).flatten

/-- Embedding of `np.column_stack(np.where(img < 255))`: row-major coordinates of the
pixels with value below 255. -/
def fgCoordsDark (img : Img) : List (ℕ × ℕ) :=
  ((enumFrom 0 img).map (fun r =>
    (enumFrom 0 r.2).filterMap (fun c =>
      if c.2 < 255 then some (r.1, c.1) else none))).flatten

/-- The angle normalization both preprocessors apply to the raw
`cv2.minAreaRect(coords)[-1]` value:
`if angle < -45: angle = -(90 + angle) else: angle = -angle`. -/
def normAngle (raw : ℚ) : ℚ := if raw < -45 then -(90 + raw) else -raw

/-- The external OpenCV operations the preprocessors call, bundled as
parameters of the embedding: `cv2.threshold(…, THRESH_OTSU)`,
`cv2.adaptiveThreshold(…, GAUSSIAN, 11, 2)`, `cv2.fastNlMeansDenoising`,
`cv2.minAreaRect(coords)[-1]`, the `getRotationMatrix2D`+`warpAffine`
rotation, and `CLAHE(2.0, (8,8)).apply`. -/
structure CVPrims where
  otsu : Img → Img
  adaptive : Img → Img
  denoise : Img → Img
  minRect : List (ℕ × ℕ) → ℚ
  rotate : Img → ℚ → Img
  clahe : Img → Img

/-- Embedding of `PDFOCRProcessor.preprocess_image` from the grayscale
image on (the multi-channel branch is the external `cv2.cvtColor`):
Otsu threshold, denoise, then deskew when any foreground pixel exists and
the normalized angle magnitude exceeds 0.5. -/
def preprocess_image (P : CVPrims) (gray : Img) : Img :=
  let thresh := P.otsu gray
  let denoised := P.denoise thresh
  let coords := fgCoordsPos denoised
  if 0 < coords.length then
    let angle := normAngle (P.minRect coords)
    if 1/2 < |angle| then P.rotate denoised angle else denoised
  else denoised

/-- Embedding of `GrantProposalOCR.preprocess_grant_image` from the
grayscale image on: denoise, adaptive threshold, deskew when more than 100
foreground pixels exist and the normalized angle magnitude lies strictly
between 0.5 and 10, then CLAHE contrast enhancement. -/
def preprocess_grant_image (P : CVPrims) (gray : Img) : Img :=
  let denoised := P.denoise gray
  let thresh := P.adaptive denoised
  let coords := fgCoordsDark thresh
  let deskewed :=
    if 100 < coords.length then
      let angle := normAngle (P.minRect coords)
      if 1/2 < |angle| ∧ |angle| < 10 then P.rotate thresh angle else thresh
    else thresh
  P.clahe deskewed

/-! ## Helper lemmas -/

theorem enumFrom_length (n : ℕ) (l : List α) : (enumFrom n l).length = l.length := by
  induction l generalizing n with
  | nil => rfl
  | cons a as ih => simp [enumFrom, ih]

theorem enumFrom_map_snd (n : ℕ) (l : List α) : (enumFrom n l).map Prod.snd = l := by
  induction l generalizing n with
  | nil => rfl
  | cons a as ih => simp [enumFrom, ih]

theorem foldl_append_map (f : β → γ) (l : List β) (acc : List γ) :
    l.foldl (fun a x => a ++ [f x]) acc = acc ++ l.map f := by
  induction l generalizing acc with
  | nil => simp
  | cons x xs ih => simp [List.foldl_cons, ih]

theorem process_pdf_eq_map {α D : Type} (ocr : ℕ → α → Except Text (OcrOut D))
    (imgs : List α) :
    process_pdf ocr imgs =
      (enumFrom 1 imgs).map (fun p => (p.1, pageRecOf (ocr p.1 p.2))) := by
  unfold process_pdf
  rw [foldl_append_map]
  simp

/-! ## Claim theorems -/

/-- C1.  In `PDFOCRProcessor.process_pdf`, a page whose OCR call raises is
recorded with the error string in its `error` field, empty text and
confidence 0, and later pages still process: the result has exactly one
entry per input page, each determined by that page's own OCR outcome alone.
In particular, on 5 pages with page 3 raising, the result has 5 entries
with page 3's error set and pages 1, 2, 4, 5 normal. -/
theorem C1_page_failure_isolated :
    (∀ (α D : Type) (ocr : ℕ → α → Except Text (OcrOut D)) (imgs : List α),
      (process_pdf ocr imgs).length = imgs.length ∧
      process_pdf ocr imgs =
        (enumFrom 1 imgs).map (fun p => (p.1, pageRecOf (ocr p.1 p.2)))) ∧
    process_pdf
      (fun n (_ : Unit) =>
        if n = 3 then (.error (strT "boom") : Except Text (OcrOut Unit))
        else .ok ⟨strT "ok", 90, ()⟩)
      (List.replicate 5 ()) =
      [(1, ⟨strT "ok", 90, some (), none⟩), (2, ⟨strT "ok", 90, some (), none⟩),
       (3, ⟨[], 0, none, some (strT "boom")⟩),
       (4, ⟨strT "ok", 90, some (), none⟩), (5, ⟨strT "ok", 90, some (), none⟩)] := by
  refine ⟨fun α D ocr imgs => ⟨?_, process_pdf_eq_map ocr imgs⟩, by decide⟩
  rw [process_pdf_eq_map]
  simp [enumFrom_length]

/-- C2.  The spec requires EasyOCR's per-token probabilities (on `[0,1]`)
to be rescaled to `[0,100]` before aggregation so the two backends are
comparable, and the code itself prints the resulting page confidence with
a percent sign; but `ocr_with_easyocr` averages the raw probabilities with
no rescaling: a single detection of probability 0.9 yields page confidence
0.9, not 90.  This contradicts the code's own percent labelling — a code
bug, evaluated here at the failing input. -/
theorem C2_easyocr_probability_not_rescaled :
    (ocr_with_easyocr [([], strT "hello", 9/10)]).confidence = 9/10 ∧
    ((9 : ℚ)/10) ≠ 90 := by
  constructor
  · show easyocrAggregate [9/10] = 9/10
    norm_num [easyocrAggregate]
  · norm_num

/-- C3 counterexample.  The claim says the aggregate equals the mean of
exactly the strictly positive token confidences; the EasyOCR aggregation
averages every token, so on confidences `[0, 1]` it returns 1/2 while the
claimed mean of the positive tokens is 1. -/
theorem C3_counterexample_easyocr_keeps_zeros :
    easyocrAggregate [0, 1] = 1/2 ∧ specAggregate [0, 1] = 1 ∧
    ((1 : ℚ)/2) ≠ 1 := by
  refine ⟨?_, ?_, by norm_num⟩
  · norm_num [easyocrAggregate]
  · norm_num [specAggregate, List.filter_cons, List.filter_nil]

/-- Sum of a list bounded above termwise. -/
theorem list_sum_le_length_mul (l : List ℚ) (b : ℚ) (h : ∀ c ∈ l, c ≤ b) :
    l.sum ≤ l.length * b := by
  induction l with
  | nil => simp
  | cons x xs ih =>
    have hx := h x (by simp)
    have hxs := ih (fun c hc => h c (by simp [hc]))
    simp only [List.sum_cons, List.length_cons]
    push_cast
    nlinarith

/-- Sum of a list bounded below by 0 termwise. -/
theorem list_sum_nonneg (l : List ℚ) (h : ∀ c ∈ l, 0 ≤ c) : 0 ≤ l.sum := by
  induction l with
  | nil => simp
  | cons x xs ih =>
    have hx := h x (by simp)
    have hxs := ih (fun c hc => h c (by simp [hc]))
    simp only [List.sum_cons]
    linarith

/-- The mean of a list of values in `[0, b]` lies in `[0, b]` (and is 0 for
the empty list, where the division is by zero). -/
theorem mean_mem_Icc (l : List ℚ) (b : ℚ) (hb : 0 ≤ b)
    (h : ∀ c ∈ l, 0 ≤ c ∧ c ≤ b) :
    0 ≤ l.sum / l.length ∧ l.sum / l.length ≤ b := by
  rcases eq_or_ne l [] with h0 | h0
  · subst h0; simp [hb]
  · have hlen : 0 < (l.length : ℚ) := by
      have : 0 < l.length := List.length_pos.mpr h0
      exact_mod_cast this
    refine ⟨div_nonneg (list_sum_nonneg l fun c hc => (h c hc).1) hlen.le, ?_⟩
    rw [div_le_iff₀ hlen]
    have := list_sum_le_length_mul l b fun c hc => (h c hc).2
    linarith

/-- C3 amended.  The Tesseract aggregation implements the spec's policy
exactly (mean of the strictly positive confidences, 0 when none); the
EasyOCR aggregation is the plain mean of all token probabilities with no
positivity filter (0 only for the empty list); both return 0 on an
all-zero token set, and both stay within `[0, 100]` whenever every token
confidence is in `[0, 100]`. -/
theorem C3_aggregate_policies (cs : List ℚ) :
    tesseractAggregate cs = specAggregate cs ∧
    ((∀ c ∈ cs, c = 0) → tesseractAggregate cs = 0 ∧ easyocrAggregate cs = 0) ∧
    ((∀ c ∈ cs, 0 ≤ c ∧ c ≤ 100) →
      0 ≤ tesseractAggregate cs ∧ tesseractAggregate cs ≤ 100 ∧
      0 ≤ easyocrAggregate cs ∧ easyocrAggregate cs ≤ 100) := by
  refine ⟨rfl, ?_, ?_⟩
  · intro hz
    have hfil : cs.filter (fun c => 0 < c) = [] := by
      rw [List.filter_eq_nil_iff]
      intro a ha
      simp [hz a ha]
    refine ⟨?_, ?_⟩
    · simp [tesseractAggregate, hfil]
    · have hsum : cs.sum = 0 := List.sum_eq_zero hz
      rcases eq_or_ne cs [] with h0 | h0
      · simp [easyocrAggregate, h0]
      · simp [easyocrAggregate, h0, hsum]
  · intro hbound
    have hfb : ∀ c ∈ cs.filter (fun c => 0 < c), 0 ≤ c ∧ c ≤ 100 :=
      fun c hc => hbound c (List.mem_of_mem_filter hc)
    have ht := mean_mem_Icc (cs.filter (fun c => 0 < c)) 100 (by norm_num) hfb
    have he := mean_mem_Icc cs 100 (by norm_num) hbound
    have htss : 0 ≤ tesseractAggregate cs ∧ tesseractAggregate cs ≤ 100 := by
      simp only [tesseractAggregate]
      split_ifs with hf
      · norm_num
      · exact ht
    have hess : 0 ≤ easyocrAggregate cs ∧ easyocrAggregate cs ≤ 100 := by
      simp only [easyocrAggregate]
      split_ifs with hf
      · norm_num
      · exact he
    exact ⟨htss.1, htss.2, hess.1, hess.2⟩

/-- C3 witness: the amended theorem evaluated at the all-zero token set
`[0, 0]`, discharging both hypotheses. -/
theorem C3_aggregate_policies_witness :
    tesseractAggregate [0, 0] = 0 ∧ easyocrAggregate [0, 0] = 0 ∧
    0 ≤ tesseractAggregate [0, 0] ∧ tesseractAggregate [0, 0] ≤ 100 ∧
    0 ≤ easyocrAggregate [0, 0] ∧ easyocrAggregate [0, 0] ≤ 100 := by
  have h := C3_aggregate_policies [0, 0]
  have h1 := h.2.1 (by intro c hc; fin_cases hc <;> rfl)
  have h2 := h.2.2 (by intro c hc; fin_cases hc <;> norm_num)
  exact ⟨h1.1, h1.2, h2.1, h2.2.1, h2.2.2.1, h2.2.2.2⟩

/-- C5 counterexample.  The claim says an unknown OCR backend is raised to
the caller before any per-page work and is never recorded as an individual
page's error; but in `process_pdf` the `ValueError` for an unknown engine
is raised inside the per-page `try` and caught by the per-page `except`,
so on a 2-page document with engine `"gpt4ocr"` both pages are processed
and both carry the engine error in their `error` field. -/
theorem C5_counterexample_unknown_engine_is_page_error :
    ((process_pdf
        (fun _ (img : Unit) =>
          engineDispatch "gpt4ocr" true true
            (fun _ => .ok (⟨[], 0, ()⟩ : OcrOut Unit)) (fun _ => .ok ⟨[], 0, ()⟩) img)
        [(), ()]).map (fun p => (p.1, p.2.error))) =
      [(1, some (strT "Unknown OCR engine: gpt4ocr")),
       (2, some (strT "Unknown OCR engine: gpt4ocr"))] := by
  decide

/-- C5 amended.  An unknown engine name, and an unavailable backend
library (pytesseract or easyocr), are detected inside each page's OCR
attempt, not before the page loop: every page's result records the
corresponding error string (as its `error` field, with empty text and
confidence 0), processing continues through all pages, and no
whole-invocation failure is raised. -/
theorem C5_backend_errors_recorded_per_page (α D : Type) (engine : String)
    (tA eA : Bool) (runT runE : α → Except Text (OcrOut D)) (imgs : List α) :
    (engine ≠ "tesseract" → engine ≠ "easyocr" →
      process_pdf (fun _ img => engineDispatch engine tA eA runT runE img) imgs =
        (enumFrom 1 imgs).map (fun p =>
          (p.1, ⟨[], 0, none, some (strT "Unknown OCR engine: " ++ strT engine)⟩))) ∧
    (process_pdf (fun _ img => engineDispatch "tesseract" false eA runT runE img) imgs =
      (enumFrom 1 imgs).map (fun p =>
        (p.1, ⟨[], 0, none,
          some (strT "pytesseract not installed. Install with: pip install pytesseract")⟩))) ∧
    (process_pdf (fun _ img => engineDispatch "easyocr" tA false runT runE img) imgs =
      (enumFrom 1 imgs).map (fun p =>
        (p.1, ⟨[], 0, none,
          some (strT "easyocr not installed. Install with: pip install easyocr")⟩))) := by
  refine ⟨?_, ?_, ?_⟩
  · intro h1 h2
    rw [process_pdf_eq_map]
    simp [engineDispatch, h1, h2, pageRecOf]
  · rw [process_pdf_eq_map]
    simp [engineDispatch, pageRecOf]
  · rw [process_pdf_eq_map]
    have hne : ("easyocr" : String) ≠ "tesseract" := by decide
    simp [engineDispatch, hne, pageRecOf]

/-- C5 witness: the amended theorem evaluated at engine `"myengine"` on a
one-page document. -/
theorem C5_backend_errors_recorded_per_page_witness :
    process_pdf
        (fun _ (img : Unit) =>
          engineDispatch "myengine" true true
            (fun _ => .ok (⟨[], 0, ()⟩ : OcrOut Unit)) (fun _ => .ok ⟨[], 0, ()⟩) img)
        [()] =
      [(1, ⟨[], 0, none, some (strT "Unknown OCR engine: myengine")⟩)] := by
  have h := (C5_backend_errors_recorded_per_page Unit Unit "myengine" true true
      (fun _ => .ok ⟨[], 0, ()⟩) (fun _ => .ok ⟨[], 0, ()⟩) [()]).1
      (by decide) (by decide)
  rw [h]
  decide

/-- If `int(conf) > 30` in Python (truncation toward zero) then the value
exceeds 30. -/
theorem lt_of_pyInt_lt {q : ℚ} (h : 30 < pyInt q) : (30 : ℚ) < q := by
  unfold pyInt at h
  split_ifs at h with h0
  · have h2 : (⌊q⌋ : ℚ) ≤ q := Int.floor_le q
    have h1 : (30 : ℚ) < (⌊q⌋ : ℚ) := by exact_mod_cast h
    linarith
  · have hq : (0 : ℚ) ≤ -q := by linarith [not_le.mp h0]
    have h1 : (0 : ℤ) ≤ ⌊-q⌋ := Int.floor_nonneg.mpr hq
    omega

/-- C10.  `extract_page_structure` keeps exactly the tokens whose
`int(conf)` exceeds 30 and whose stripped text is nonempty (stripping the
text in the output), so every structured token it returns has confidence
strictly greater than 30 and nonempty stripped text; tokens at or below
confidence 30 and whitespace-only tokens are dropped. -/
theorem C10_structured_tokens_filtered (data : List RawTok) :
    extract_page_structure data =
      (data.filter (fun t => decide (30 < pyInt t.conf) && !(pyStrip t.text).isEmpty)).map
        (fun t => ⟨pyStrip t.text, t.left, t.top, t.width, t.height, t.conf⟩) ∧
    ∀ s ∈ extract_page_structure data, (30 : ℚ) < s.conf ∧ s.text ≠ [] := by
  have hchar : extract_page_structure data =
      (data.filter (fun t => decide (30 < pyInt t.conf) && !(pyStrip t.text).isEmpty)).map
        (fun t => ⟨pyStrip t.text, t.left, t.top, t.width, t.height, t.conf⟩) := by
    induction data with
    | nil => rfl
    | cons t ts ih =>
      have hstep : extract_page_structure (t :: ts) =
          (if 30 < pyInt t.conf then
            if (pyStrip t.text).isEmpty then extract_page_structure ts
            else (⟨pyStrip t.text, t.left, t.top, t.width, t.height, t.conf⟩ : StructTok) ::
              extract_page_structure ts
          else extract_page_structure ts) := rfl
      rw [hstep, ih, List.filter_cons]
      by_cases h1 : 30 < pyInt t.conf
      · by_cases h2 : (pyStrip t.text).isEmpty
        · simp [h1, h2]
        · simp [h1, h2]
      · simp [h1]
  refine ⟨hchar, ?_⟩
  rw [hchar]
  intro s hs
  obtain ⟨t, ht, rfl⟩ := List.mem_map.mp hs
  have hcond := (List.mem_filter.mp ht).2
  rw [Bool.and_eq_true, decide_eq_true_eq, Bool.not_eq_true'] at hcond
  have h2 : (pyStrip t.text).isEmpty = false := hcond.2
  refine ⟨lt_of_pyInt_lt hcond.1, ?_⟩
  show pyStrip t.text ≠ []
  intro hnil
  rw [hnil] at h2
  simp at h2

/-- C10 witness: the theorem evaluated on three raw tokens — one good, one
whitespace-only, one low-confidence. -/
theorem C10_structured_tokens_filtered_witness :
    (⟨strT "hi", 0, 0, 9, 5, 95⟩ : StructTok) ∈
      extract_page_structure
        [⟨strT " hi ", 0, 0, 9, 5, 95⟩, ⟨strT "  ", 1, 1, 1, 1, 99⟩,
         ⟨strT "low", 2, 2, 2, 2, 12⟩] ∧
    (30 : ℚ) < (⟨strT "hi", 0, 0, 9, 5, 95⟩ : StructTok).conf ∧
    (⟨strT "hi", 0, 0, 9, 5, 95⟩ : StructTok).text ≠ [] := by
  have hmem : (⟨strT "hi", 0, 0, 9, 5, 95⟩ : StructTok) ∈
      extract_page_structure
        [⟨strT " hi ", 0, 0, 9, 5, 95⟩, ⟨strT "  ", 1, 1, 1, 1, 99⟩,
         ⟨strT "low", 2, 2, 2, 2, 12⟩] := by
    decide
  exact ⟨hmem, (C10_structured_tokens_filtered _).2 _ hmem⟩

/-- C6 counterexample.  The claim requires more than ~100 foreground
pixels before any deskew rotation; but `PDFOCRProcessor.preprocess_image`
rotates as soon as a single foreground pixel exists: with the external
OpenCV primitives instantiated concretely (angle measurement returning
-7°, a rotation that visibly marks the image), a one-pixel image is
rotated even though its foreground count is 1 ≤ 100. -/
theorem C6_counterexample_cli_deskews_few_pixels :
    preprocess_image ⟨id, id, id, fun _ => -7, fun _ _ => [[123]], id⟩ [[255]] = [[123]] ∧
    preprocess_image ⟨id, id, id, fun _ => -7, fun _ _ => [[123]], id⟩ [[255]] ≠ [[255]] ∧
    (fgCoordsPos [[255]]).length = 1 := by
  have hc : fgCoordsPos [[255]] = [(0, 0)] := by decide
  have h1 : preprocess_image ⟨id, id, id, fun _ => -7, fun _ _ => [[123]], id⟩ [[255]] =
      [[123]] := by
    norm_num [preprocess_image, hc, normAngle]
  exact ⟨h1, by rw [h1]; decide, by decide⟩

/-- C6 amended.  Deskew rotation is applied by
`GrantProposalOCR.preprocess_grant_image` exactly when the thresholded
image has more than 100 foreground pixels and the normalized angle
magnitude lies strictly between 0.5° and 10°; but by
`PDFOCRProcessor.preprocess_image` exactly when at least one foreground
pixel exists and the magnitude exceeds 0.5°, with no 100-pixel minimum
and no 10° cap. -/
theorem C6_deskew_guard_characterization (P : CVPrims) (gray : Img) :
    (preprocess_grant_image P gray =
      P.clahe
        (if 100 < (fgCoordsDark (P.adaptive (P.denoise gray))).length ∧
            1/2 < |normAngle (P.minRect (fgCoordsDark (P.adaptive (P.denoise gray))))| ∧
            |normAngle (P.minRect (fgCoordsDark (P.adaptive (P.denoise gray))))| < 10
         then P.rotate (P.adaptive (P.denoise gray))
                (normAngle (P.minRect (fgCoordsDark (P.adaptive (P.denoise gray)))))
         else P.adaptive (P.denoise gray))) ∧
    (preprocess_image P gray =
      if fgCoordsPos (P.denoise (P.otsu gray)) ≠ [] ∧
         1/2 < |normAngle (P.minRect (fgCoordsPos (P.denoise (P.otsu gray))))|
      then P.rotate (P.denoise (P.otsu gray))
             (normAngle (P.minRect (fgCoordsPos (P.denoise (P.otsu gray)))))
      else P.denoise (P.otsu gray)) := by
  constructor
  · by_cases h1 : 100 < (fgCoordsDark (P.adaptive (P.denoise gray))).length
    · by_cases h2 : 1/2 < |normAngle (P.minRect (fgCoordsDark (P.adaptive (P.denoise gray))))| ∧
          |normAngle (P.minRect (fgCoordsDark (P.adaptive (P.denoise gray))))| < 10
      · simp [preprocess_grant_image, h1, h2]
      · simp [preprocess_grant_image, h1, h2]
    · simp [preprocess_grant_image, h1]
  · by_cases h1 : fgCoordsPos (P.denoise (P.otsu gray)) = []
    · simp [preprocess_image, h1]
    · by_cases h2 : 1/2 < |normAngle (P.minRect (fgCoordsPos (P.denoise (P.otsu gray))))|
      · simp [preprocess_image, h1, h2, List.length_pos.mpr h1]
      · simp [preprocess_image, h1, h2, List.length_pos.mpr h1]

/-- C9.  Preprocessing is idempotent below the deskew threshold: whenever
the external binarization, denoising and contrast stages fix an already
binarized image (they have nothing left to change) and the measured
deskew angle has magnitude at most 0.5°, both preprocessors return the
image pixel-identically — the deskew stage is a no-op below the 0.5°
threshold. -/
theorem C9_preprocess_idempotent_below_threshold (P : CVPrims) (b : Img)
    (hotsu : P.otsu b = b) (hden : P.denoise b = b) (hada : P.adaptive b = b)
    (hcla : P.clahe b = b)
    (hangPos : |normAngle (P.minRect (fgCoordsPos b))| ≤ 1/2)
    (hangDark : |normAngle (P.minRect (fgCoordsDark b))| ≤ 1/2) :
    preprocess_image P b = b ∧ preprocess_grant_image P b = b := by
  constructor
  · simp only [preprocess_image]
    rw [hotsu, hden]
    split_ifs with h1 h2
    · exact absurd h2 (not_lt.mpr hangPos)
    · rfl
    · rfl
  · simp only [preprocess_grant_image]
    rw [hden, hada]
    split_ifs with h1 h2
    · exact absurd h2.1 (not_lt.mpr hangDark)
    · exact hcla
    · exact hcla

/-- C9 witness: the theorem applied to identity external stages, angle
measurement 0, and a concrete binary image. -/
theorem C9_preprocess_idempotent_below_threshold_witness :
    |normAngle ((⟨id, id, id, fun _ => 0, fun i _ => i, id⟩ : CVPrims).minRect
        (fgCoordsPos [[0, 255], [255, 0]]))| ≤ 1/2 ∧
    preprocess_image ⟨id, id, id, fun _ => 0, fun i _ => i, id⟩ [[0, 255], [255, 0]] =
      [[0, 255], [255, 0]] ∧
    preprocess_grant_image ⟨id, id, id, fun _ => 0, fun i _ => i, id⟩ [[0, 255], [255, 0]] =
      [[0, 255], [255, 0]] := by
  have hang : |normAngle ((0 : ℚ))| ≤ 1/2 := by norm_num [normAngle]
  have h := C9_preprocess_idempotent_below_threshold
      ⟨id, id, id, fun _ => 0, fun i _ => i, id⟩ [[0, 255], [255, 0]]
      rfl rfl rfl rfl hang hang
  exact ⟨hang, h.1, h.2⟩

/-- Behavior of `Option.getD` after consing onto the front of `getLast?`: the default
only matters when the whole list is empty. -/
theorem getD_getLast?_cons (a b : α) (l : List α) :
    ((b :: l).getLast?).getD a = (l.getLast?).getD b := by
  cases l with
  | nil => rfl
  | cons c cs =>
    rw [List.getLast?_cons_cons,
      List.getLast?_eq_getLast_of_ne_nil (l := c :: cs) (by simp)]
    rfl

/-- The first component of the inner `for section_info in found_sections`
fold is the last found section key, or the incoming current section when
nothing was found. -/
theorem innerFold_fst (found : List Found) (st : String × Sections) :
    (found.foldl (fun s f => (f.section_key, ensureKey f.section_key s.2)) st).1 =
      ((found.map Found.section_key).getLast?).getD st.1 := by
  induction found generalizing st with
  | nil => rfl
  | cons f fs ih =>
    rw [List.foldl_cons, ih, List.map_cons, getD_getLast?_cons]

/-- The section a page is filed under by one `process_grant_proposal` loop
iteration: the last matching heading of the page, else the carried-over
current section. -/
theorem grantStep_fst (st : String × Sections) (pg : ℕ × Text) :
    (grantStep st pg).1 =
      (((detect_sections pg.2).map Found.section_key).getLast?).getD st.1 := by
  simp only [grantStep]
  exact innerFold_fst _ st

/-- Modelled from the spec (§4.4 SectionDetector): the explicit
fold/accumulator form of the transition rule — each page takes the last
matching heading found on it, otherwise the carried-over active section,
which then propagates to the next page.  Second definition used to compare
the code's fold against the spec's statement of it. -/
def specSectionFold (cur : String) : List Text → List String
  | [] => []
  | t :: ts =>
    let c := (((detect_sections t).map Found.section_key).getLast?).getD cur
    c :: specSectionFold c ts

theorem sectionTrace_eq_specFold (pgs : List (ℕ × Text)) (st : String × Sections) :
    sectionTrace st pgs = specSectionFold st.1 (pgs.map Prod.snd) := by
  induction pgs generalizing st with
  | nil => rfl
  | cons pg pgs ih =>
    simp only [sectionTrace, List.map_cons, specSectionFold]
    rw [ih, grantStep_fst]

/-- C4.  The section detector starts in `preamble` and, folded over pages
in order, assigns each page the section of the last matching heading found
on that page, else the section carried over from the previous page; on
the four-page scenario of the spec the assignment is
`[preamble, specific_aims, specific_aims, approach]`. -/
theorem C4_section_state_machine :
    (∀ texts : List Text, section_assignments texts = specSectionFold "preamble" texts) ∧
    section_assignments
      [strT "Introduction text...", strT "SPECIFIC AIMS\nWe propose...",
       strT "continued aims text", strT "APPROACH\nOur method..."] =
      ["preamble", "specific_aims", "specific_aims", "approach"] := by
  constructor
  · intro texts
    unfold section_assignments
    rw [sectionTrace_eq_specFold, enumFrom_map_snd]
  · decide

/-- Every entry `lineMatches` produces for line `n` carries line index `n`. -/
theorem line_of_mem_lineMatches {f : Found} {n : ℕ} {l : Text}
    (h : f ∈ lineMatches n l) : f.line = n := by
  unfold lineMatches at h
  obtain ⟨kp, _, hf⟩ := List.mem_filterMap.mp h
  split_ifs at hf with hc
  exact (Option.some.inj hf) ▸ rfl

/-- A line produces at least one match exactly when it is short (stripped
length below 50) and some section pattern matches its stripped form. -/
theorem lineMatches_ne_nil_iff (n : ℕ) (l : Text) :
    lineMatches n l ≠ [] ↔
      ((pyStrip l).length < 50 ∧
       ∃ kp ∈ SECTION_PATTERNS, Rx.matchPre kp.2 (pyStrip l) = true) := by
  constructor
  · intro hne
    obtain ⟨f, hf⟩ := List.exists_mem_of_ne_nil _ hne
    unfold lineMatches at hf
    obtain ⟨kp, hkp, hif⟩ := List.mem_filterMap.mp hf
    split_ifs at hif with hc
    rw [Bool.and_eq_true, decide_eq_true_eq] at hc
    exact ⟨hc.2, kp, hkp, hc.1⟩
  · rintro ⟨hlen, kp, hkp, hm⟩
    intro hnil
    have hmem : (⟨kp.1, n, pyStrip l⟩ : Found) ∈ lineMatches n l := by
      unfold lineMatches
      refine List.mem_filterMap.mpr ⟨kp, hkp, ?_⟩
      rw [if_pos]
      rw [Bool.and_eq_true, decide_eq_true_eq]
      exact ⟨hm, hlen⟩
    rw [hnil] at hmem
    exact absurd hmem (List.not_mem_nil _)

/-- Characterization of "some heading was detected on line `j`" over the
line scan starting at index `n`. -/
theorem any_detectFrom (j : ℕ) (ls : List Text) :
    ∀ n : ℕ, ((detectFrom n ls).any (fun f => f.line == j)) = true ↔
      ∃ i, ∃ h : i < ls.length, n + i = j ∧ lineMatches j (ls.get ⟨i, h⟩) ≠ [] := by
  induction ls with
  | nil => intro n; simp [detectFrom]
  | cons l ls ih =>
    intro n
    rw [detectFrom, List.any_append, Bool.or_eq_true]
    constructor
    · rintro (hl | hr)
      · obtain ⟨f, hf, hfj⟩ := List.any_eq_true.mp hl
        have hfl : f.line = n := line_of_mem_lineMatches hf
        have hfj2 : f.line = j := by simpa using hfj
        refine ⟨0, by simp, by omega, ?_⟩
        have hnj : n = j := by omega
        rw [← hnj]
        simpa using List.ne_nil_of_mem hf
      · obtain ⟨i, hi, hij, hne⟩ := (ih (n + 1)).mp hr
        exact ⟨i + 1, by simpa using hi, by omega, by simpa using hne⟩
    · rintro ⟨i, hi, hij, hne⟩
      cases i with
      | zero =>
        left
        obtain ⟨f, hf⟩ := List.exists_mem_of_ne_nil _ hne
        have hfj : f.line = j := line_of_mem_lineMatches hf
        have hnj : n = j := by omega
        refine List.any_eq_true.mpr ⟨f, ?_, by simp [hfj]⟩
        rw [hnj]
        simpa using hf
      | succ i =>
        right
        refine (ih (n + 1)).mpr ⟨i, by simpa using hi, by omega, by simpa using hne⟩

/-- C7.  A text line is detected as a section heading if and only if one
of the fixed section patterns matches its stripped form (case-insensitive,
anchored at the start as `re.match` is) and its stripped length is
strictly below 50 characters — so a longer line containing a section
phrase is never detected as a heading. -/
theorem C7_heading_iff_short_and_matching (t : Text) (i : ℕ)
    (h : i < (splitNl t).length) :
    ((detect_sections t).any (fun f => f.line == i)) = true ↔
      ((pyStrip ((splitNl t).get ⟨i, h⟩)).length < 50 ∧
       ∃ kp ∈ SECTION_PATTERNS,
         Rx.matchPre kp.2 (pyStrip ((splitNl t).get ⟨i, h⟩)) = true) := by
  unfold detect_sections
  rw [any_detectFrom]
  constructor
  · rintro ⟨j, hj, hij, hne⟩
    have hji : j = i := by omega
    subst hji
    exact (lineMatches_ne_nil_iff j _).mp hne
  · intro hc
    exact ⟨i, h, by omega, (lineMatches_ne_nil_iff i _).mpr hc⟩

/-- C7 witness: the theorem applied to a page whose first line is the
short heading `APPROACH` (the detection Bool on the left of the iff is
evaluated by `decide`). -/
theorem C7_heading_iff_short_and_matching_witness :
    (pyStrip ((splitNl (strT "APPROACH\nthis body line talks about the approach inside a sentence well over fifty characters long")).get
        ⟨0, by decide⟩)).length < 50 ∧
    ∃ kp ∈ SECTION_PATTERNS,
      Rx.matchPre kp.2
        (pyStrip ((splitNl (strT "APPROACH\nthis body line talks about the approach inside a sentence well over fifty characters long")).get
          ⟨0, by decide⟩)) = true :=
  (C7_heading_iff_short_and_matching
      (strT "APPROACH\nthis body line talks about the approach inside a sentence well over fifty characters long")
      0 (by decide)).mp (by decide)

/-! ### Partition of pages into sections (C8) -/

/-- All pages stored in a sections dict, in dict order. -/
def joinPages (S : Sections) : List (ℕ × Text) := (S.map Prod.snd).flatten

theorem joinPages_ensureKey (k : String) (S : Sections) :
    joinPages (ensureKey k S) = joinPages S := by
  unfold ensureKey joinPages
  split_ifs
  · rfl
  · simp

theorem any_ensureKey_self (k : String) (S : Sections) :
    (ensureKey k S).any (fun s => s.1 = k) = true := by
  unfold ensureKey
  split_ifs with h
  · exact h
  · simp

theorem innerFold_any (found : List Found) (st : String × Sections)
    (h : st.2.any (fun s => s.1 = st.1) = true) :
    ((found.foldl (fun s f => (f.section_key, ensureKey f.section_key s.2)) st).2).any
      (fun s =>
        s.1 = (found.foldl (fun s f => (f.section_key, ensureKey f.section_key s.2)) st).1) =
      true := by
  induction found generalizing st with
  | nil => exact h
  | cons f fs ih =>
    rw [List.foldl_cons]
    exact ih _ (any_ensureKey_self f.section_key st.2)

theorem innerFold_joinPages (found : List Found) (st : String × Sections) :
    joinPages ((found.foldl (fun s f => (f.section_key, ensureKey f.section_key s.2)) st).2) =
      joinPages st.2 := by
  induction found generalizing st with
  | nil => rfl
  | cons f fs ih =>
    rw [List.foldl_cons, ih]
    exact joinPages_ensureKey f.section_key st.2

theorem joinPages_appendPage (k : String) (pg : ℕ × Text) (S : Sections)
    (h : S.any (fun s => s.1 = k) = true) :
    (joinPages (appendPage k pg S)).Perm (pg :: joinPages S) := by
  induction S with
  | nil => simp at h
  | cons e rest ih =>
    obtain ⟨k', l⟩ := e
    unfold appendPage
    split_ifs with hk
    · simp only [joinPages, List.map_cons, List.flatten_cons]
      have hre : (l ++ [pg]) ++ (rest.map Prod.snd).flatten =
          l ++ (pg :: (rest.map Prod.snd).flatten) := by simp
      rw [hre]
      exact List.perm_middle
    · have hrest : rest.any (fun s => s.1 = k) = true := by
        simpa [hk] using h
      simp only [joinPages, List.map_cons, List.flatten_cons]
      exact (List.Perm.append_left l (ih hrest)).trans List.perm_middle

theorem appendPage_map_fst (k : String) (pg : ℕ × Text) (S : Sections) :
    (appendPage k pg S).map Prod.fst = S.map Prod.fst := by
  induction S with
  | nil => rfl
  | cons e rest ih =>
    obtain ⟨k', l⟩ := e
    unfold appendPage
    split_ifs with hk
    · simp
    · simpa using ih

theorem any_fst_eq (S : Sections) (c : String) :
    S.any (fun s => s.1 = c) = (S.map Prod.fst).any (fun x => x = c) := by
  induction S with
  | nil => rfl
  | cons e rest ih => simp [List.any_cons, ih]

theorem grantStep_invariants (st : String × Sections) (pg : ℕ × Text)
    (h : st.2.any (fun s => s.1 = st.1) = true) :
    (joinPages (grantStep st pg).2).Perm (pg :: joinPages st.2) ∧
    (grantStep st pg).2.any (fun s => s.1 = (grantStep st pg).1) = true := by
  have h1 := innerFold_any (detect_sections pg.2) st h
  have h2 := innerFold_joinPages (detect_sections pg.2) st
  constructor
  · show (joinPages (appendPage _ pg _)).Perm _
    have hp := joinPages_appendPage _ pg _ h1
    rw [h2] at hp
    exact hp
  · show (appendPage _ pg _).any _ = true
    rw [any_fst_eq, appendPage_map_fst, ← any_fst_eq]
    exact h1

theorem outer_fold_perm (pgs : List (ℕ × Text)) (st : String × Sections)
    (h : st.2.any (fun s => s.1 = st.1) = true) :
    (joinPages ((pgs.foldl grantStep st).2)).Perm (pgs ++ joinPages st.2) ∧
    ((pgs.foldl grantStep st).2).any
      (fun s => s.1 = (pgs.foldl grantStep st).1) = true := by
  induction pgs generalizing st with
  | nil => exact ⟨by simp [List.Perm.refl], h⟩
  | cons pg pgs ih =>
    rw [List.foldl_cons]
    have hstep := grantStep_invariants st pg h
    have hrec := ih (grantStep st pg) hstep.2
    refine ⟨?_, hrec.2⟩
    exact hrec.1.trans ((List.Perm.append_left pgs hstep.1).trans List.perm_middle)

theorem mem_enumFrom_le {p : ℕ × α} :
    ∀ {l : List α} {n : ℕ}, p ∈ enumFrom n l → n ≤ p.1 := by
  intro l
  induction l with
  | nil => intro n h; simp [enumFrom] at h
  | cons a as ih =>
    intro n h
    rcases (by simpa [enumFrom] using h : p = (n, a) ∨ p ∈ enumFrom (n + 1) as) with h1 | h2
    · rw [h1]
    · have := ih h2
      omega

theorem nodup_enumFrom (l : List α) (n : ℕ) : (enumFrom n l).Nodup := by
  induction l generalizing n with
  | nil => simp [enumFrom]
  | cons a as ih =>
    refine List.nodup_cons.mpr ⟨?_, ih (n + 1)⟩
    intro hmem
    have := mem_enumFrom_le hmem
    omega

/-- Occurrence count of one page entry, via `countP` over propositional
equality (kept separate from `List.count` to fix the decidability route). -/
def countOcc (a : ℕ × Text) (l : List (ℕ × Text)) : ℕ :=
  l.countP (fun x => decide (x = a))

theorem countOcc_eq_zero {a : ℕ × Text} {l : List (ℕ × Text)} (h : a ∉ l) :
    countOcc a l = 0 := by
  unfold countOcc
  rw [List.countP_eq_zero]
  intro x hx
  simp only [decide_eq_true_eq]
  intro hxa
  exact h (hxa ▸ hx)

theorem countOcc_pos {a : ℕ × Text} {l : List (ℕ × Text)} (h : a ∈ l) :
    0 < countOcc a l := by
  unfold countOcc
  rw [List.countP_pos_iff]
  exact ⟨a, h, by simp⟩

theorem countOcc_nodup_mem {a : ℕ × Text} {l : List (ℕ × Text)}
    (hd : l.Nodup) (ha : a ∈ l) : countOcc a l = 1 := by
  induction l with
  | nil => simp at ha
  | cons x xs ih =>
    obtain ⟨hx, hxs⟩ := List.nodup_cons.mp hd
    unfold countOcc
    rw [List.countP_cons]
    rcases List.mem_cons.mp ha with rfl | hmem
    · have : countOcc a xs = 0 := countOcc_eq_zero hx
      unfold countOcc at this
      simp [this]
    · have hne : x ≠ a := fun hxa => hx (hxa ▸ hmem)
      have := ih hxs hmem
      unfold countOcc at this
      simp [this, hne]

theorem countOcc_flatten (a : ℕ × Text) (L : List (List (ℕ × Text))) :
    countOcc a L.flatten = (L.map (countOcc a)).sum := by
  induction L with
  | nil => rfl
  | cons l ls ih =>
    rw [List.flatten_cons, List.map_cons, List.sum_cons]
    unfold countOcc
    rw [List.countP_append]
    unfold countOcc at ih
    rw [ih]

theorem countP_mem_of_countOcc_sum_one (a : ℕ × Text) (L : List (List (ℕ × Text)))
    (h : (L.map (countOcc a)).sum = 1) :
    L.countP (fun l => decide (a ∈ l)) = 1 := by
  induction L with
  | nil => simp at h
  | cons l ls ih =>
    rw [List.map_cons, List.sum_cons] at h
    rw [List.countP_cons]
    by_cases hm : a ∈ l
    · have hc : 0 < countOcc a l := countOcc_pos hm
      have hrest : (ls.map (countOcc a)).sum = 0 := by omega
      have hz : ls.countP (fun l => decide (a ∈ l)) = 0 := by
        rw [List.countP_eq_zero]
        intro l' hl'
        have hcl : countOcc a l' = 0 := by
          have hle : countOcc a l' ≤ (ls.map (countOcc a)).sum := by
            have hmm : countOcc a l' ∈ ls.map (countOcc a) :=
              List.mem_map.mpr ⟨l', hl', rfl⟩
            exact List.le_sum_of_mem hmm
          omega
        have hnm : a ∉ l' := by
          intro hmem
          have := countOcc_pos (l := l') hmem
          omega
        simp [hnm]
      simp [hm, hz]
    · have hz : countOcc a l = 0 := countOcc_eq_zero hm
      rw [hz] at h
      simp [hm]
      exact ih (by omega)

/-- C8.  The sections built by `process_grant_proposal` partition the
pages: the concatenation of all sections' page lists is a permutation of
the full page sequence, and every page appears exactly once overall and in
exactly one section's page list. -/
theorem C8_sections_partition_pages (texts : List Text) :
    (joinPages (process_grant_proposal texts)).Perm (enumFrom 1 texts) ∧
    ∀ pg ∈ enumFrom 1 texts,
      countOcc pg (joinPages (process_grant_proposal texts)) = 1 ∧
      (process_grant_proposal texts).countP (fun s => decide (pg ∈ s.2)) = 1 := by
  have hinit : ([("preamble", ([] : List (ℕ × Text)))] : Sections).any
      (fun s => s.1 = "preamble") = true := by decide
  have h := outer_fold_perm (enumFrom 1 texts) ("preamble", [("preamble", [])]) hinit
  have hperm : (joinPages (process_grant_proposal texts)).Perm (enumFrom 1 texts) := by
    have h1 := h.1
    simpa [process_grant_proposal, joinPages] using h1
  refine ⟨hperm, fun pg hpg => ?_⟩
  have hcount : countOcc pg (joinPages (process_grant_proposal texts)) = 1 := by
    unfold countOcc
    rw [hperm.countP_eq]
    exact countOcc_nodup_mem (nodup_enumFrom texts 1) hpg
  refine ⟨hcount, ?_⟩
  have hsum : (((process_grant_proposal texts).map Prod.snd).map (countOcc pg)).sum = 1 := by
    rw [← countOcc_flatten]
    exact hcount
  have hc := countP_mem_of_countOcc_sum_one pg ((process_grant_proposal texts).map Prod.snd) hsum
  rw [List.countP_map] at hc
  exact hc

/-- C8 witness: the theorem applied to a two-page document, checking page 1. -/
theorem C8_sections_partition_pages_witness :
    (1, strT "alpha") ∈ enumFrom 1 [strT "alpha", strT "APPROACH\nbeta"] ∧
    countOcc (1, strT "alpha")
      (joinPages (process_grant_proposal [strT "alpha", strT "APPROACH\nbeta"])) = 1 ∧
    (process_grant_proposal [strT "alpha", strT "APPROACH\nbeta"]).countP
      (fun s => decide ((1, strT "alpha") ∈ s.2)) = 1 :=
  ⟨by decide, (C8_sections_partition_pages [strT "alpha", strT "APPROACH\nbeta"]).2 _ (by decide)⟩

end FooQtPy
